import Mathlib

/-!
Verification of the text-chunking and vector-retrieval pipeline of
`src/latest_ai_development/oceanbase_rag/data_loader.py`.

The Python module is shallowly embedded here.  Text is `List Char`;
string slicing, `rfind` and `strip` are modelled as executable functions
with Python's clamping semantics; the `while` loop of `_chunk_text` is
modelled with explicit fuel.  The loop body is deterministic in the
cursor `start`, and while the loop runs `start` stays inside
`[0, len)`, so a run that has not finished after `len + 1` iterations
has repeated a cursor position and the Python loop runs forever; the
fuelled model returns `none` exactly in that case.

The store-facing methods (`load_pdf`, `check_status`,
`search_documents`) perform network calls through `ObVecClient` and the
embedding provider; they are embedded as pure functions that return the
ordered trace of client calls they issue, with the embedding provider
an abstract function parameter and the store's responses (table
existence, row count, fetched rows) as explicit inputs.
-/

namespace OceanBaseRag

/-- Python `\s` whitespace class (ASCII part), as used by
`re.sub(r"\s+", " ", text)` and `str.strip()`. -/
def isSpace (c : Char) : Bool :=
  c == ' ' || c == '\t' || c == '\n' || c == '\r' || c == '\x0b' || c == '\x0c'

/-- `re.sub(r"\s+", " ", text)`: collapse every maximal run of whitespace
into a single space (the run contributes one `' '`, emitted at its last
character). -/
def collapseWS : List Char → List Char
  | [] => []
  | [c] => if isSpace c then [' '] else [c]
  | c1 :: c2 :: rest =>
    if isSpace c1 && isSpace c2 then collapseWS (c2 :: rest)
    else (if isSpace c1 then ' ' else c1) :: collapseWS (c2 :: rest)

/-- Python `str.strip()`: drop leading and trailing whitespace. -/
def stripList (l : List Char) : List Char :=
  ((l.dropWhile isSpace).reverse.dropWhile isSpace).reverse

/-- Python slice `text[a:b]` for non-negative indices, with Python's
clamping to the text length. -/
def slice (text : List Char) (a b : Nat) : List Char :=
  (text.drop a).take (b - a)

/-- Single left-to-right scan recording the index of the last position
where `sub` starts (indices offset by `i`); helper for `rfind`. -/
def lastOccurAux (sub : List Char) : List Char → Nat → Option Nat → Option Nat
  | [], _, best => best
  | c :: rest, i, best =>
    lastOccurAux sub rest (i + 1) (if sub.isPrefixOf (c :: rest) then some i else best)

/-- Index of the last occurrence of `sub` fully contained in `l`. -/
def lastOccur (sub l : List Char) : Option Nat := lastOccurAux sub l 0 none

/-- Python `text.rfind(sub, lo, hi)`: the highest index `b ≥ lo` such that
`sub` is contained within `text[lo:hi]`; `none` models Python's `-1`. -/
def rfind (text sub : List Char) (lo hi : Nat) : Option Nat :=
  (lastOccur sub (slice text lo hi)).map (lo + ·)

/-- `CHUNK_SIZE = 1500` (chunk size in characters). -/
def CHUNK_SIZE : Nat := 1500

/-- `CHUNK_OVERLAP = 200`. -/
def CHUNK_OVERLAP : Nat := 200

/-- The `end` of the chunk starting at `start`: tentatively
`start + CHUNK_SIZE`; while that is strictly inside the text, move it to
one past the last `". "` in `text[start : end + 1]` if any, else to one
past the last `" "` there if any, else keep the tentative value. -/
def chunkEnd (text : List Char) (start : Nat) : Nat :=
  if start + CHUNK_SIZE < text.length then
    match rfind text ['.', ' '] start (start + CHUNK_SIZE + 1) with
    | some b => b + 1
    | none =>
      match rfind text [' '] start (start + CHUNK_SIZE + 1) with
      | some b => b + 1
      | none => start + CHUNK_SIZE
  else start + CHUNK_SIZE

/-- One iteration of the `while` loop of `_chunk_text`: the emitted
(trimmed) chunk and the next cursor.  The advance is
`start = end - CHUNK_OVERLAP`, reset to `end` exactly when the
subtraction would be negative (`if start < 0: start = end`). -/
def chunkStep (text : List Char) (start : Nat) : List Char × Nat :=
  (stripList (slice text start (chunkEnd text start)),
   if chunkEnd text start < CHUNK_OVERLAP then chunkEnd text start
   else chunkEnd text start - CHUNK_OVERLAP)

/-- The `while start < len(text)` loop of `_chunk_text`, with fuel;
`none` models divergence of the Python loop. -/
def chunkLoop (text : List Char) : Nat → Nat → Option (List (List Char))
  | 0, start => if start < text.length then none else some []
  | fuel + 1, start =>
    if start < text.length then
      (chunkLoop text fuel (chunkStep text start).2).map ((chunkStep text start).1 :: ·)
    else some []

/-- `_chunk_text`: normalize whitespace, return `[]` on empty text, else
run the chunking loop and keep the non-empty chunks.  Fuel `len + 1`
suffices for every terminating run of the Python loop (the cursor stays
in `[0, len)` and the body is deterministic, so `len + 1` iterations
force a repeated cursor), hence `none` models divergence. -/
def chunk_text (raw : List Char) : Option (List (List Char)) :=
  if (stripList (collapseWS raw)).isEmpty then some []
  else
    (chunkLoop (stripList (collapseWS raw)) ((stripList (collapseWS raw)).length + 1) 0).map
      (List.filter (fun c => !c.isEmpty))

/-- The same loop, recording the `(start, end)` span of each emitted
chunk instead of its text. -/
def spanLoop (text : List Char) : Nat → Nat → Option (List (Nat × Nat))
  | 0, start => if start < text.length then none else some []
  | fuel + 1, start =>
    if start < text.length then
      (spanLoop text fuel (chunkStep text start).2).map ((start, chunkEnd text start) :: ·)
    else some []

/-- Cursor-advance relation between the spans of consecutive emitted
chunks: the next chunk starts `CHUNK_OVERLAP` before the previous end,
except that when `end - CHUNK_OVERLAP` would be negative the cursor is
reset to `end` and the spans do not overlap. -/
def advOk (p q : Nat × Nat) : Prop :=
  (CHUNK_OVERLAP ≤ p.2 ∧ q.1 = p.2 - CHUNK_OVERLAP) ∨ (p.2 < CHUNK_OVERLAP ∧ q.1 = p.2)

/-- Length of the longest suffix of `a` that is a prefix of `b`: the
string-level overlap of two consecutive chunks. -/
def overlapLen (a b : List Char) : Nat :=
  ((List.range (min a.length b.length + 1)).filter
    (fun k => a.drop (a.length - k) == b.take k)).foldr max 0

/-- A value fetched from the store: `pyobvector` rows are dynamic, so a
column is null, an integer (e.g. `id`), or a string (e.g. `text`); the
distance column of `ann_search` rows is likewise just a dynamic value. -/
inductive DbVal where
  | vNull
  | vInt (n : Int)
  | vStr (s : List Char)
deriving DecidableEq

/-- One record returned by `search_documents`:
`{"distance": dist, "text": text_val}` where `dist` is a row value or
Python `None` (modelled `none`) and `text_val` is a row value or `""`. -/
structure SearchRec where
  distance : Option DbVal
  text : DbVal
deriving DecidableEq

/-- The per-row translation in `search_documents`:
`dist = r[-1] if len(r) > 2 else None` and
`text_val = r[1] if len(r) > 1 else ""`. -/
def rowToRec (r : List DbVal) : SearchRec where
  distance := if h : 2 < r.length then some (r.getLast (by intro he; simp [he] at h)) else none
  text := if h : 1 < r.length then r.get ⟨1, h⟩ else DbVal.vStr []

/-- A row inserted by `load_pdf`:
`{"id": row_id, "text": chunk[:16000], "embedding": vec}`; the embedding
vector type `E` is abstract (the provider is an external collaborator). -/
structure Row (E : Type) where
  id : Nat
  text : List Char
  embedding : E
deriving DecidableEq

/-- One client / provider call issued by the data loader. -/
inductive Op (E : Type) where
  | dropTableIfExists
  | refreshMetadata
  | createTableWithIndex
  | refreshTableMetadata
  | embedText (t : List Char)
  | insert (rows : List (Row E))
  | checkTableExists
  | countRows
  | annSearch (vec : E) (k : Nat)
deriving DecidableEq

/-- The rows built for one batch starting at chunk offset `i`:
`for j, chunk in enumerate(batch): row_id = i + j + 1;`
`rows.append({"id": row_id, "text": chunk[:16000], "embedding": vec})`
(accumulator form: the head gets id `i + 1` and the tail continues at
`i + 1`). -/
def mkRows (emb : List Char → E) (i : Nat) : List (List Char) → List (Row E)
  | [] => []
  | c :: rest => ⟨i + 1, c.take 16000, emb c⟩ :: mkRows emb (i + 1) rest

/-- The batched insert phase of `load_pdf`:
`for i in range(0, len(chunks), batch_size): batch = chunks[i:i+5]` —
each batch of at most 5 chunks is embedded chunk by chunk and then
inserted, and the loop continues at offset `i + 5`. -/
def insertBatches (emb : List Char → E) (i : Nat) : List (List Char) → List (Op E)
  | [] => []
  | a :: b :: c :: d :: e :: rest =>
    ([a, b, c, d, e].map Op.embedText ++ [Op.insert (mkRows emb i [a, b, c, d, e])])
      ++ insertBatches emb (i + 5) rest
  | batch => batch.map Op.embedText ++ [Op.insert (mkRows emb i batch)]

/-- The table-lifecycle calls `load_pdf` always issues first:
`drop_table_if_exist`, `refresh_metadata()`,
`create_table_with_index_params` (schema + HNSW index),
`refresh_metadata(tables=[table_name])`. -/
def tableSetupOps : List (Op E) :=
  [Op.dropTableIfExists, Op.refreshMetadata, Op.createTableWithIndex, Op.refreshTableMetadata]

/-- `OceanBaseData.load_pdf`, as the trace of calls it issues: recreate
the table, then chunk the extracted text (`raw`), return early when
there are no chunks, else embed and insert in batches of 5.  `none`
models divergence of `_chunk_text`. -/
def load_pdf_ops (emb : List Char → E) (raw : List Char) : Option (List (Op E)) :=
  (chunk_text raw).map fun chunks =>
    tableSetupOps ++ if chunks.isEmpty then [] else insertBatches emb 0 chunks

/-- `OceanBaseData.check_status`, as its trace of calls and its result
string, given the store's responses (whether the table exists, and the
`COUNT(*)` value). -/
def check_status (E : Type) (tableExists : Bool) (count : Nat) : List (Op E) × String :=
  if tableExists then ([Op.checkTableExists, Op.countRows], "rows=" ++ toString count)
  else ([Op.checkTableExists], "table does not exist")

/-- `OceanBaseData.search_documents`, as its trace of calls and its
returned records, given the store's responses (whether the table
exists, and the rows `fetchall` returns): if the table does not exist,
return `[]` at once; else embed the query, run `ann_search` on the
query vector with `topk = limit`, and translate each fetched row with
`rowToRec`. -/
def search_documents (emb : List Char → E) (tableExists : Bool) (query : List Char)
    (limit : Nat) (storeRows : List (List DbVal)) : List (Op E) × List SearchRec :=
  if tableExists then
    ([Op.checkTableExists, Op.embedText query, Op.annSearch (emb query) limit], storeRows.map rowToRec)
  else ([Op.checkTableExists], [])

/-- `True` for the calls that drop, create or write the table. -/
def mutatesTable : Op E → Bool
  | Op.dropTableIfExists => true
  | Op.createTableWithIndex => true
  | Op.insert _ => true
  | _ => false

/-- `True` exactly for embedding-provider calls. -/
def isEmbedCall : Op E → Bool
  | Op.embedText _ => true
  | _ => false

/-- `True` exactly for row-insert calls. -/
def isInsertCall : Op E → Bool
  | Op.insert _ => true
  | _ => false

/-- `True` when an insert call carries at most `batch_size = 5` rows. -/
def insertLe5 : Op E → Bool
  | Op.insert rows => decide (rows.length ≤ 5)
  | _ => true

/-- All rows written by a trace, in order. -/
def insertedRows (ops : List (Op E)) : List (Row E) :=
  ops.flatMap fun op => match op with | Op.insert rows => rows | _ => []

/-- All texts sent to the embedding provider by a trace, in order. -/
def embedCalls (ops : List (Op E)) : List (List Char) :=
  ops.flatMap fun op => match op with | Op.embedText t => [t] | _ => []

/-- Normalized text on which `_chunk_text` repeats the cursor position 0:
199 `'x'`, then `". "`, then 1300 `'y'` (length 1501). -/
def cycleText1 : List Char := List.replicate 199 'x' ++ '.' :: ' ' :: List.replicate 1300 'y'

/-- Normalized text of length 1552 on which `_chunk_text` reaches cursor
51 and then repeats it forever: 250 `'x'`, then `". "`, then 1300 `'y'`. -/
def cycleText7 : List Char := List.replicate 250 'x' ++ '.' :: ' ' :: List.replicate 1300 'y'

/-- Normalized text `"A. "` + 1499 `'x'`: the sentence boundary pulls the
first chunk back to `"A."`. -/
def exC2 : List Char := 'A' :: '.' :: ' ' :: List.replicate 1499 'x'

/-- Normalized text `"B. "` + 1499 `'x'`: the sentence boundary pulls the
first chunk back to `"B."`. -/
def exC3 : List Char := 'B' :: '.' :: ' ' :: List.replicate 1499 'x'

/-! ## Lemmas about the chunking loop -/

theorem chunkLoop_none_of_fix (text : List Char) (s : Nat) (h1 : s < text.length)
    (h2 : (chunkStep text s).2 = s) : ∀ fuel, chunkLoop text fuel s = none := by
  intro fuel
  induction fuel with
  | zero => simp [chunkLoop, h1]
  | succ n ih => simp [chunkLoop, h1, h2, ih]

set_option maxRecDepth 100000 in
/-- C1: false of the code as written.  The spec claims the advance is
forced to `end` whenever the computed `start` would not move forward; the
code only forces it when `end - CHUNK_OVERLAP` is negative.  On the
normalized 1501-character text `cycleText1` the boundary search pulls
`end` back to 200, the advance recomputes `start = 0`, and the loop
revisits cursor 0 forever: the chunker does not terminate. -/
theorem chunk_text_c1_diverges :
    chunk_text cycleText1 = none ∧
    ∀ fuel, chunkLoop (stripList (collapseWS cycleText1)) fuel 0 = none := by
  have h1 : 0 < (stripList (collapseWS cycleText1)).length := by decide
  have h2 : (chunkStep (stripList (collapseWS cycleText1)) 0).2 = 0 := by decide
  have hall := chunkLoop_none_of_fix _ _ h1 h2
  refine ⟨?_, hall⟩
  have hne : ¬((stripList (collapseWS cycleText1)).isEmpty = true) := by decide
  simp only [chunk_text]
  rw [if_neg hne, hall]
  rfl

set_option maxRecDepth 100000 in
/-- C7: false of the code as written.  `cycleText7` is a normalized text
of length 1552 > CHUNK_SIZE, so the claim asks for at least
⌈(1552 - 200) / 1300⌉ = 2 chunks; instead the loop advances from cursor
0 to cursor 51 and then revisits 51 forever, so the chunker never
returns any chunks. -/
theorem chunk_text_c7_diverges :
    cycleText7.length = 1552 ∧ CHUNK_SIZE < cycleText7.length ∧
    chunk_text cycleText7 = none ∧
    ∀ fuel, chunkLoop (stripList (collapseWS cycleText7)) fuel 0 = none := by
  have h1 : 51 < (stripList (collapseWS cycleText7)).length := by decide
  have h2 : (chunkStep (stripList (collapseWS cycleText7)) 51).2 = 51 := by decide
  have h51 := chunkLoop_none_of_fix _ _ h1 h2
  have h0 : (chunkStep (stripList (collapseWS cycleText7)) 0).2 = 51 := by decide
  have h0lt : 0 < (stripList (collapseWS cycleText7)).length := by omega
  have hall : ∀ fuel, chunkLoop (stripList (collapseWS cycleText7)) fuel 0 = none := by
    intro fuel
    cases fuel with
    | zero => simp [chunkLoop, h0lt]
    | succ n => simp [chunkLoop, h0lt, h0, h51 n]
  refine ⟨by decide, by decide, ?_, hall⟩
  have hne : ¬((stripList (collapseWS cycleText7)).isEmpty = true) := by decide
  simp only [chunk_text]
  rw [if_neg hne, hall]
  rfl

theorem stripCollapse_allspace (l : List Char) (h : l.all isSpace = true) :
    stripList (collapseWS l) = [] := by
  induction l with
  | nil => rfl
  | cons a l ih =>
    simp only [List.all_cons, Bool.and_eq_true] at h
    cases l with
    | nil =>
      have hc : collapseWS [a] = [' '] := by simp [collapseWS, h.1]
      rw [hc]; decide
    | cons b l =>
      have hb : isSpace b = true := by
        have := h.2
        simp only [List.all_cons, Bool.and_eq_true] at this
        exact this.1
      simp only [collapseWS, h.1, hb, Bool.and_self, if_pos]
      exact ih h.2

/-- C9: whenever every character of the input is whitespace (in
particular for the empty input), normalization yields the empty text and
`_chunk_text` returns the empty sequence. -/
theorem chunk_text_c9_whitespace (raw : List Char) (h : raw.all isSpace = true) :
    chunk_text raw = some [] := by
  simp [chunk_text, stripCollapse_allspace raw h]

theorem chunk_text_c9_whitespace_witness :
    chunk_text [' ', ' ', ' '] = some [] ∧ chunk_text [] = some [] :=
  ⟨chunk_text_c9_whitespace [' ', ' ', ' '] (by decide),
   chunk_text_c9_whitespace [] (by decide)⟩

/-! ## rfind characterization and chunk-length bound -/

theorem lastOccurAux_some (sub : List Char) (l : List Char) (i : Nat) (best : Option Nat)
    (j : Nat) (h : lastOccurAux sub l i best = some j) :
    best = some j ∨ ∃ k, k < l.length ∧ j = i + k ∧ sub.isPrefixOf (l.drop k) = true := by
  induction l generalizing i best with
  | nil => exact Or.inl h
  | cons c rest ih =>
    rw [lastOccurAux] at h
    rcases ih _ _ h with h' | ⟨k, hk, hj, hp⟩
    · by_cases hp : sub.isPrefixOf (c :: rest) = true
      · rw [if_pos hp] at h'
        injection h' with h''
        exact Or.inr ⟨0, by simp, by omega, by simpa using hp⟩
      · rw [if_neg hp] at h'
        exact Or.inl h'
    · exact Or.inr ⟨k + 1, by simpa using hk, by omega, by simpa using hp⟩

theorem lastOccur_some (sub l : List Char) (j : Nat) (h : lastOccur sub l = some j) :
    j < l.length ∧ sub.isPrefixOf (l.drop j) = true := by
  rcases lastOccurAux_some sub l 0 none j h with h' | ⟨k, hk, hj, hp⟩
  · exact absurd h' (by simp)
  · have : j = k := by omega
    subst this
    exact ⟨hk, hp⟩

theorem length_slice (text : List Char) (a b : Nat) :
    (slice text a b).length = min (b - a) (text.length - a) := by
  simp [slice]

theorem rfind_some (text sub : List Char) (lo hi b : Nat) (h : rfind text sub lo hi = some b) :
    lo ≤ b ∧ b + sub.length ≤ lo + (hi - lo) ∧ b + sub.length ≤ text.length ∧
    sub.isPrefixOf (text.drop b) = true := by
  rw [rfind] at h
  cases hlo : lastOccur sub (slice text lo hi) with
  | none => rw [hlo] at h; simp at h
  | some j =>
    rw [hlo] at h
    simp only [Option.map_some'] at h
    injection h with hb
    obtain ⟨hj, hp⟩ := lastOccur_some _ _ _ hlo
    have hpre : sub <+: ((slice text lo hi).drop j) := by
      simpa using hp
    have hlen1 : sub.length ≤ (slice text lo hi).length - j := by
      have := hpre.length_le
      simpa using this
    have hlen2 : (slice text lo hi).length = min (hi - lo) (text.length - lo) :=
      length_slice text lo hi
    have hsub : sub <+: text.drop (lo + j) := by
      have heq : (slice text lo hi).drop j = (text.drop (lo + j)).take (hi - lo - j) := by
        rw [slice, List.drop_take, List.drop_drop]
      rw [heq] at hpre
      exact hpre.trans ( List.take_prefix _ _)
    refine ⟨by omega, by omega, by omega, ?_⟩
    rw [← hb]
    simpa using hsub

theorem stripList_length_le (l : List Char) : (stripList l).length ≤ l.length := by
  rw [stripList]
  have h1 := (List.dropWhile_sublist (l := (l.dropWhile isSpace).reverse) isSpace).length_le
  have h2 := (List.dropWhile_sublist (l := l) isSpace).length_le
  simp only [List.length_reverse] at h1 ⊢
  omega

theorem stripList_append_space (l : List Char) (c : Char) (hc : isSpace c = true) :
    stripList (l ++ [c]) = stripList l := by
  rw [stripList, stripList, List.dropWhile_append]
  by_cases he : (l.dropWhile isSpace).isEmpty
  · rw [if_pos he]
    have h1 : List.dropWhile isSpace [c] = [] := by simp [hc]
    have h2 : l.dropWhile isSpace = [] := List.isEmpty_iff.mp he
    rw [h1, h2]
  · rw [if_neg he]
    rw [List.reverse_append]
    have : ([c] : List Char).reverse = [c] := rfl
    rw [this]
    simp [hc]

theorem slice_succ_right (text : List Char) (a b : Nat) (hab : a ≤ b) (hb : b < text.length) :
    slice text a (b + 1) = slice text a b ++ [text[b]] := by
  rw [slice, slice]
  have h1 : b + 1 - a = (b - a) + 1 := by omega
  rw [h1, List.take_succ]
  have h2 : (text.drop a)[b - a]? = text[b]? := by
    rw [List.getElem?_drop]
    congr 1
    omega
  rw [h2, List.getElem?_eq_getElem hb]
  rfl

theorem chunkStep_fst_length_le (text : List Char) (start : Nat) :
    (chunkStep text start).1.length ≤ CHUNK_SIZE := by
  have hbase : ∀ e, e ≤ start + CHUNK_SIZE →
      (stripList (slice text start e)).length ≤ CHUNK_SIZE := by
    intro e he
    have h1 := stripList_length_le (slice text start e)
    have h2 := length_slice text start e
    omega
  have hfst : (chunkStep text start).1 = stripList (slice text start (chunkEnd text start)) :=
    rfl
  rw [hfst, chunkEnd]
  split
  · split
    · rename_i b hdot
      obtain ⟨hlo, hhi, _, _⟩ := rfind_some _ _ _ _ _ hdot
      simp only [List.length_cons, List.length_nil] at hhi
      exact hbase _ (by omega)
    · split
      · rename_i b hsp
        obtain ⟨hlo, hhi, hblen, hpre⟩ := rfind_some _ _ _ _ _ hsp
        simp only [List.length_cons, List.length_nil] at hhi hblen
        by_cases hb : b + 1 ≤ start + CHUNK_SIZE
        · exact hbase _ hb
        · have hbe : b = start + CHUNK_SIZE := by omega
          have hblt : b < text.length := by omega
          have hsp2 : isSpace (text[b]) = true := by
            have hpx : [' '] <+: text.drop b := by simpa using hpre
            obtain ⟨t, ht⟩ := hpx
            have hget : (text.drop b)[0]? = some ' ' := by
              rw [← ht]
              simp
            rw [List.getElem?_drop] at hget
            have hg2 : text[b]? = some ' ' := by simpa using hget
            have hg3 : text[b] = ' ' := by
              have hx := List.getElem?_eq_getElem hblt
              rw [hx] at hg2
              exact Option.some_injective _ hg2
            rw [hg3]
            rfl
          rw [slice_succ_right text start b (by omega) hblt,
            stripList_append_space _ _ hsp2]
          have h1 := stripList_length_le (slice text start b)
          have h2 := length_slice text start b
          omega
      · exact hbase _ (Nat.le_refl _)
  · exact hbase _ (Nat.le_refl _)

theorem chunkLoop_length_le (text : List Char) (fuel : Nat) :
    ∀ start cs, chunkLoop text fuel start = some cs → ∀ c ∈ cs, c.length ≤ CHUNK_SIZE := by
  induction fuel with
  | zero =>
    intro start cs h
    rw [chunkLoop] at h
    split at h
    · exact absurd h (by simp)
    · injection h with h'
      intro c hc
      rw [← h'] at hc
      simp at hc
  | succ n ih =>
    intro start cs h
    rw [chunkLoop] at h
    split at h
    · cases hrec : chunkLoop text n (chunkStep text start).2 with
      | none => rw [hrec] at h; simp at h
      | some cs' =>
        rw [hrec] at h
        simp only [Option.map_some'] at h
        injection h with h'
        intro c hc
        rw [← h'] at hc
        rcases List.mem_cons.mp hc with rfl | hc'
        · exact chunkStep_fst_length_le _ _
        · exact ih _ _ hrec c hc'
    · injection h with h'
      intro c hc
      rw [← h'] at hc
      simp at hc

/-- C3 amended: every chunk produced by `_chunk_text` has length at most
`CHUNK_SIZE` (= 1500); but it is **not** true that only the last chunk can
be shorter — when the boundary search pulls `end` back, a non-final chunk
is shorter than `CHUNK_SIZE` (see the counterexample theorem). -/
theorem chunk_text_c3_length_le (raw : List Char) (cs : List (List Char))
    (h : chunk_text raw = some cs) : ∀ c ∈ cs, c.length ≤ CHUNK_SIZE := by
  rw [chunk_text] at h
  split at h
  · injection h with h'
    intro c hc
    rw [← h'] at hc
    simp at hc
  · cases hl :
        chunkLoop (stripList (collapseWS raw)) ((stripList (collapseWS raw)).length + 1) 0 with
    | none => rw [hl] at h; simp at h
    | some cs0 =>
      rw [hl] at h
      simp only [Option.map_some'] at h
      injection h with h'
      intro c hc
      rw [← h'] at hc
      exact chunkLoop_length_le _ _ _ _ hl c (List.mem_of_mem_filter hc)

theorem chunk_text_c3_length_le_witness : (['a', 'b'] : List Char).length ≤ CHUNK_SIZE :=
  chunk_text_c3_length_le ['a', 'b'] [['a', 'b']] (by decide) ['a', 'b'] (by decide)

set_option maxRecDepth 100000 in
/-- C3 counterexample: on the normalized text `exC3` (= `"B. "` followed
by 1499 `'x'`), the produced chunks have lengths `[2, 1499, 200]`: the
first chunk has length 2 < CHUNK_SIZE yet is not the last chunk, because
the sentence-boundary search pulled its `end` back to the `". "`. -/
theorem chunk_text_c3_counterexample :
    (chunk_text exC3).map (List.map List.length) = some [2, 1499, 200] ∧ 2 < CHUNK_SIZE := by
  exact ⟨by decide, by decide⟩

/-! ## Overlap of consecutive chunk spans -/

theorem chunkStep_snd (text : List Char) (s : Nat) :
    (chunkStep text s).2 =
      if chunkEnd text s < CHUNK_OVERLAP then chunkEnd text s
      else chunkEnd text s - CHUNK_OVERLAP := rfl

theorem spanLoop_head_start (text : List Char) (fuel start : Nat) (sps : List (Nat × Nat))
    (h : spanLoop text fuel start = some sps) : ∀ p ∈ sps.head?, p.1 = start := by
  cases fuel with
  | zero =>
    rw [spanLoop] at h
    split at h
    · exact absurd h (by simp)
    · injection h with h'
      rw [← h']
      simp
  | succ n =>
    rw [spanLoop] at h
    split at h
    · cases hrec : spanLoop text n (chunkStep text start).2 with
      | none => rw [hrec] at h; simp at h
      | some rest =>
        rw [hrec] at h
        simp only [Option.map_some'] at h
        injection h with h'
        rw [← h']
        intro p hp
        simp at hp
        rw [← hp]
    · injection h with h'
      rw [← h']
      simp

/-- C2 amended: the cursor maintains the following invariant between the
source spans of consecutive emitted chunks: the next span starts exactly
`CHUNK_OVERLAP` (= 200) characters before the previous span's end
whenever `end - CHUNK_OVERLAP` is non-negative, and otherwise (the
termination-guard reset) the next span starts at the previous end with
no overlap at all; the chunks of `chunkLoop` are exactly the trimmed
slices of these spans, so after trimming and dropping empty chunks the
returned strings can overlap by less than 200 characters (see the
counterexample theorem). -/
theorem spanLoop_c2_overlap (text : List Char) (fuel : Nat) :
    ∀ start sps, spanLoop text fuel start = some sps →
      sps.Chain' advOk ∧
      chunkLoop text fuel start = some (sps.map fun p => stripList (slice text p.1 p.2)) := by
  induction fuel with
  | zero =>
    intro start sps h
    rw [spanLoop] at h
    split at h
    · exact absurd h (by simp)
    · injection h with h'
      rw [← h']
      refine ⟨by simp, ?_⟩
      rw [chunkLoop]
      rw [if_neg (by assumption)]
      rfl
  | succ n ih =>
    intro start sps h
    rw [spanLoop] at h
    split at h
    · cases hrec : spanLoop text n (chunkStep text start).2 with
      | none => rw [hrec] at h; simp at h
      | some rest =>
        rw [hrec] at h
        simp only [Option.map_some'] at h
        injection h with h'
        obtain ⟨hchain, hloop⟩ := ih _ _ hrec
        rw [← h']
        constructor
        · rw [List.chain'_cons']
          refine ⟨?_, hchain⟩
          intro q hq
          have hq1 : q.1 = (chunkStep text start).2 :=
            spanLoop_head_start text n _ rest hrec q hq
          rw [chunkStep_snd] at hq1
          rw [advOk]
          by_cases hlt : chunkEnd text start < CHUNK_OVERLAP
          · right
            rw [if_pos hlt] at hq1
            exact ⟨hlt, hq1⟩
          · left
            rw [if_neg hlt] at hq1
            exact ⟨by omega, hq1⟩
        · rw [chunkLoop]
          rw [if_pos (by assumption), hloop]
          rfl
    · injection h with h'
      rw [← h']
      refine ⟨by simp, ?_⟩
      rw [chunkLoop]
      rw [if_neg (by assumption)]
      rfl

theorem spanLoop_c2_overlap_witness :
    ([(0, CHUNK_SIZE)] : List (Nat × Nat)).Chain' advOk ∧
    chunkLoop ['a', 'b'] 3 0 =
      some (([(0, CHUNK_SIZE)] : List (Nat × Nat)).map
        fun p => stripList (slice ['a', 'b'] p.1 p.2)) :=
  spanLoop_c2_overlap ['a', 'b'] 3 0 [(0, CHUNK_SIZE)] (by decide)

set_option maxRecDepth 100000 in
/-- C2 counterexample: on the normalized text `exC2` (= `"A. "` followed
by 1499 `'x'`), the returned chunks have lengths `[2, 1499, 200]`, the
first returned chunk is `"A."` and the second starts with `"xx"`: the
first two consecutive returned chunks overlap by 0 characters, not by
`CHUNK_OVERLAP` = 200 (the guard reset the cursor to `end` and the
overlap region was a stripped space). -/
theorem chunk_text_c2_counterexample :
    (chunk_text exC2).map (List.map List.length) = some [2, 1499, 200] ∧
    ((chunk_text exC2).getD []).getD 0 [] = ['A', '.'] ∧
    (((chunk_text exC2).getD []).getD 1 []).take 2 = ['x', 'x'] ∧
    overlapLen (((chunk_text exC2).getD []).getD 0 [])
      (((chunk_text exC2).getD []).getD 1 []) = 0 := by
  exact ⟨by decide, by decide, by decide, by decide⟩

/-! ## Store traces: load_pdf, check_status, search_documents -/

set_option maxRecDepth 100000 in
/-- C4 counterexample: on input whose extracted text yields zero chunks
(here the empty text), `load_pdf` does **not** leave the store untouched:
its trace is exactly the table-recreation calls, and these include the
drop and the create — they are issued before the text is chunked. -/
theorem load_pdf_c4_counterexample :
    load_pdf_ops (fun _ => ()) [] = some tableSetupOps ∧
    Op.dropTableIfExists ∈ (tableSetupOps : List (Op Unit)) ∧
    Op.createTableWithIndex ∈ (tableSetupOps : List (Op Unit)) := by
  exact ⟨by decide, by decide, by decide⟩

/-- C4 amended: when the extracted text yields zero chunks, `load_pdf`
returns right after the table recreation: its trace is exactly the
drop/create/refresh calls and contains no insert call and no
embedding-provider call. -/
theorem load_pdf_c4_zero_chunks (E : Type) (emb : List Char → E) (raw : List Char)
    (h : chunk_text raw = some []) :
    load_pdf_ops emb raw = some tableSetupOps ∧
    (tableSetupOps : List (Op E)).all (fun op => !isInsertCall op && !isEmbedCall op) = true := by
  constructor
  · rw [load_pdf_ops, h]
    rfl
  · rfl

theorem load_pdf_c4_zero_chunks_witness :
    load_pdf_ops (fun _ => ()) ([] : List Char) = some tableSetupOps ∧
    (tableSetupOps : List (Op Unit)).all (fun op => !isInsertCall op && !isEmbedCall op) = true :=
  load_pdf_c4_zero_chunks Unit (fun _ => ()) [] (by decide)

theorem insertedRows_append (ops1 ops2 : List (Op E)) :
    insertedRows (ops1 ++ ops2) = insertedRows ops1 ++ insertedRows ops2 := by
  simp [insertedRows]

theorem embedCalls_append (ops1 ops2 : List (Op E)) :
    embedCalls (ops1 ++ ops2) = embedCalls ops1 ++ embedCalls ops2 := by
  simp [embedCalls]

theorem insertedRows_insertBatches (emb : List Char → E) :
    ∀ n l, List.length l ≤ n → ∀ i, insertedRows (insertBatches emb i l) = mkRows emb i l := by
  intro n
  induction n with
  | zero =>
    intro l h i
    match l with
    | [] => rfl
    | c :: rest => simp at h
  | succ n ih =>
    intro l h i
    match l with
    | [] => rfl
    | [a] => rfl
    | [a, b] => rfl
    | [a, b, c] => rfl
    | [a, b, c, d] => rfl
    | a :: b :: c :: d :: e :: rest =>
      have hr : rest.length ≤ n := by simp at h; omega
      have hstep : insertBatches emb i (a :: b :: c :: d :: e :: rest) =
          ([a, b, c, d, e].map Op.embedText ++ [Op.insert (mkRows emb i [a, b, c, d, e])])
            ++ insertBatches emb (i + 5) rest := rfl
      rw [hstep, insertedRows_append, ih rest hr (i + 5)]
      rfl

theorem embedCalls_insertBatches (emb : List Char → E) :
    ∀ n l, List.length l ≤ n → ∀ i, embedCalls (insertBatches emb i l) = l := by
  intro n
  induction n with
  | zero =>
    intro l h i
    match l with
    | [] => rfl
    | c :: rest => simp at h
  | succ n ih =>
    intro l h i
    match l with
    | [] => rfl
    | [a] => rfl
    | [a, b] => rfl
    | [a, b, c] => rfl
    | [a, b, c, d] => rfl
    | a :: b :: c :: d :: e :: rest =>
      have hr : rest.length ≤ n := by simp at h; omega
      have hstep : insertBatches emb i (a :: b :: c :: d :: e :: rest) =
          ([a, b, c, d, e].map Op.embedText ++ [Op.insert (mkRows emb i [a, b, c, d, e])])
            ++ insertBatches emb (i + 5) rest := rfl
      rw [hstep, embedCalls_append, ih rest hr (i + 5)]
      rfl

theorem mkRows_le5 (emb : List Char → E) (i : Nat) (l : List (List Char))
    (h : l.length ≤ 5) : (mkRows emb i l).length ≤ 5 := by
  have : ∀ (j : Nat) (l2 : List (List Char)), (mkRows emb j l2).length = l2.length := by
    intro j l2
    induction l2 generalizing j with
    | nil => rfl
    | cons c rest ih => simp [mkRows, ih]
  rw [this]
  exact h

theorem insertBatches_le5 (emb : List Char → E) :
    ∀ n l, List.length l ≤ n → ∀ i, (insertBatches emb i l).all insertLe5 = true := by
  intro n
  induction n with
  | zero =>
    intro l h i
    match l with
    | [] => rfl
    | c :: rest => simp at h
  | succ n ih =>
    intro l h i
    match l with
    | [] => rfl
    | [a] => rfl
    | [a, b] => rfl
    | [a, b, c] => rfl
    | [a, b, c, d] => rfl
    | a :: b :: c :: d :: e :: rest =>
      have hr : rest.length ≤ n := by simp at h; omega
      have hstep : insertBatches emb i (a :: b :: c :: d :: e :: rest) =
          ([a, b, c, d, e].map Op.embedText ++ [Op.insert (mkRows emb i [a, b, c, d, e])])
            ++ insertBatches emb (i + 5) rest := rfl
      rw [hstep, List.all_append]
      rw [ih rest hr (i + 5)]
      rfl

theorem mkRows_map_id (emb : List Char → E) (l : List (List Char)) :
    ∀ i, (mkRows emb i l).map Row.id = List.range' (i + 1) l.length := by
  induction l with
  | nil => intro i; rfl
  | cons c rest ih =>
    intro i
    rw [mkRows]
    simp only [List.map_cons, List.length_cons, List.range'_succ]
    rw [ih (i + 1)]

theorem mkRows_map_text (emb : List Char → E) (l : List (List Char)) :
    ∀ i, (mkRows emb i l).map Row.text = l.map (fun c => c.take 16000) := by
  induction l with
  | nil => intro i; rfl
  | cons c rest ih =>
    intro i
    rw [mkRows]
    simp only [List.map_cons]
    rw [ih (i + 1)]

theorem mkRows_map_embedding (emb : List Char → E) (l : List (List Char)) :
    ∀ i, (mkRows emb i l).map Row.embedding = l.map emb := by
  induction l with
  | nil => intro i; rfl
  | cons c rest ih =>
    intro i
    rw [mkRows]
    simp only [List.map_cons]
    rw [ih (i + 1)]

/-- C5: after an ingestion that produces chunks, the inserted rows carry
ids exactly `1..N` in document chunk order (no gaps, no reordering),
their texts are the chunks truncated to 16000 characters in chunk order,
their embeddings are the chunks' embeddings in chunk order, the
embedding provider is called on exactly the chunks in document order,
and every insert batch has at most 5 rows. -/
theorem load_pdf_c5_ids (E : Type) (emb : List Char → E) (raw : List Char)
    (chunks : List (List Char)) (ops : List (Op E))
    (hc : chunk_text raw = some chunks) (hops : load_pdf_ops emb raw = some ops) :
    (insertedRows ops).map Row.id = List.range' 1 chunks.length ∧
    (insertedRows ops).map Row.text = chunks.map (fun c => c.take 16000) ∧
    (insertedRows ops).map Row.embedding = chunks.map emb ∧
    embedCalls ops = chunks ∧
    ops.all insertLe5 = true := by
  rw [load_pdf_ops, hc] at hops
  simp only [Option.map_some'] at hops
  injection hops with hops'
  rw [← hops']
  by_cases hemp : chunks.isEmpty
  · have hcn : chunks = [] := List.isEmpty_iff.mp hemp
    rw [if_pos hemp, hcn]
    exact ⟨rfl, rfl, rfl, rfl, rfl⟩
  · rw [if_neg hemp]
    rw [insertedRows_append, embedCalls_append, List.all_append]
    have h1 := insertedRows_insertBatches emb chunks.length chunks (Nat.le_refl _) 0
    have h2 := embedCalls_insertBatches emb chunks.length chunks (Nat.le_refl _) 0
    have h3 := insertBatches_le5 emb chunks.length chunks (Nat.le_refl _) 0
    have h4 : insertedRows (tableSetupOps : List (Op E)) = [] := rfl
    have h5 : embedCalls (tableSetupOps : List (Op E)) = [] := rfl
    have h6 : (tableSetupOps : List (Op E)).all insertLe5 = true := rfl
    rw [h1, h2, h3, h4, h5, h6]
    simp only [List.nil_append, Bool.true_and, Bool.and_true]
    refine ⟨mkRows_map_id emb chunks 0, mkRows_map_text emb chunks 0,
      mkRows_map_embedding emb chunks 0, ?_, ?_⟩
    · trivial
    · trivial

theorem load_pdf_c5_ids_witness :
    (insertedRows (tableSetupOps ++ insertBatches (fun _ => ()) 0 [['h', 'i']])).map Row.id =
      List.range' 1 1 ∧
    (insertedRows (tableSetupOps ++ insertBatches (fun _ => ()) 0 [['h', 'i']])).map Row.text =
      [['h', 'i']].map (fun c => c.take 16000) ∧
    (insertedRows (tableSetupOps ++ insertBatches (fun _ => ()) 0 [['h', 'i']])).map
      Row.embedding = [['h', 'i']].map (fun _ => ()) ∧
    embedCalls (tableSetupOps ++ insertBatches (fun _ => ()) 0 [['h', 'i']]) = [['h', 'i']] ∧
    (tableSetupOps ++ insertBatches (fun _ => ()) 0 [['h', 'i']]).all insertLe5 = true :=
  load_pdf_c5_ids Unit (fun _ => ()) ['h', 'i'] [['h', 'i']]
    (tableSetupOps ++ insertBatches (fun _ => ()) 0 [['h', 'i']]) (by decide) (by decide)

/-- C6: when the table does not exist, `search_documents` returns the
empty sequence after the single existence check: it issues no
embedding-provider call (and no other store call), for every query,
every limit and whatever the store would have returned. -/
theorem search_documents_c6_no_table (E : Type) (emb : List Char → E) (q : List Char)
    (k : Nat) (storeRows : List (List DbVal)) :
    search_documents emb false q k storeRows = ([Op.checkTableExists], []) ∧
    (search_documents emb false q k storeRows).1.all (fun op => !isEmbedCall op) = true := by
  exact ⟨rfl, rfl⟩

/-- C8: `check_status` and `search_documents` only ever issue read-only
calls (existence check, count, embedding, ANN search): no call of any of
their traces drops, creates or writes the table, whatever the store
state and arguments; hence in any sequence of such calls the table is
never modified — recreation happens only in `load_pdf`. -/
theorem status_search_c8_readonly (E : Type) (emb : List Char → E) (tableExists : Bool)
    (count : Nat) (q : List Char) (k : Nat) (storeRows : List (List DbVal)) :
    (check_status E tableExists count).1.all (fun op => !mutatesTable op) = true ∧
    (search_documents emb tableExists q k storeRows).1.all
      (fun op => !mutatesTable op) = true := by
  cases tableExists
  · refine ⟨?_, ?_⟩
    · rfl
    · rfl
  · refine ⟨?_, ?_⟩
    · rfl
    · rfl

/-- C10: `search_documents` maps each fetched row `r` to a record whose
`distance` is the row's last column exactly when the row has more than 2
columns and Python `None` otherwise, and whose `text` is the row's
second column exactly when the row has more than 1 column and the empty
string otherwise; the row values are dynamic, so the returned distance
need not be numeric. -/
theorem search_documents_c10_row_shape (E : Type) (emb : List Char → E) (q : List Char)
    (k : Nat) (storeRows : List (List DbVal)) (r : List DbVal) :
    (search_documents emb true q k storeRows).2 = storeRows.map rowToRec ∧
    (∀ h : 2 < r.length, (rowToRec r).distance = some (r.get ⟨r.length - 1, by omega⟩)) ∧
    (r.length ≤ 2 → (rowToRec r).distance = none) ∧
    (∀ h : 1 < r.length, (rowToRec r).text = r.get ⟨1, h⟩) ∧
    (r.length ≤ 1 → (rowToRec r).text = DbVal.vStr []) := by
  refine ⟨rfl, ?_, ?_, ?_, ?_⟩
  · intro h
    rw [rowToRec]
    simp only [dif_pos h]
    rw [List.getLast_eq_getElem]
    simp
  · intro h
    rw [rowToRec]
    simp only []
    rw [dif_neg (by omega)]
  · intro h
    rw [rowToRec]
    simp only [dif_pos h]
  · intro h
    rw [rowToRec]
    simp only []
    rw [dif_neg (by omega)]

theorem search_documents_c10_row_shape_witness :
    (search_documents (fun _ => ()) true [] 5
      [[DbVal.vInt 1, DbVal.vStr ['t'], DbVal.vStr ['d']]]).2 =
      [[DbVal.vInt 1, DbVal.vStr ['t'], DbVal.vStr ['d']]].map rowToRec ∧
    (rowToRec [DbVal.vInt 1, DbVal.vStr ['t'], DbVal.vStr ['d']]).distance =
      some (DbVal.vStr ['d']) ∧
    (rowToRec [DbVal.vInt 1, DbVal.vStr ['t']]).distance = none ∧
    (rowToRec [DbVal.vInt 1, DbVal.vStr ['t'], DbVal.vStr ['d']]).text = DbVal.vStr ['t'] ∧
    (rowToRec [DbVal.vInt 1]).text = DbVal.vStr [] := by
  refine ⟨?_, ?_, ?_, ?_, ?_⟩
  · exact (search_documents_c10_row_shape Unit (fun _ => ()) [] 5
      [[DbVal.vInt 1, DbVal.vStr ['t'], DbVal.vStr ['d']]]
      [DbVal.vInt 1, DbVal.vStr ['t'], DbVal.vStr ['d']]).1
  · exact (search_documents_c10_row_shape Unit (fun _ => ()) [] 5
      [[DbVal.vInt 1, DbVal.vStr ['t'], DbVal.vStr ['d']]]
      [DbVal.vInt 1, DbVal.vStr ['t'], DbVal.vStr ['d']]).2.1 (by decide)
  · exact (search_documents_c10_row_shape Unit (fun _ => ()) [] 5
      [[DbVal.vInt 1, DbVal.vStr ['t'], DbVal.vStr ['d']]]
      [DbVal.vInt 1, DbVal.vStr ['t']]).2.2.1 (by decide)
  · exact (search_documents_c10_row_shape Unit (fun _ => ()) [] 5
      [[DbVal.vInt 1, DbVal.vStr ['t'], DbVal.vStr ['d']]]
      [DbVal.vInt 1, DbVal.vStr ['t'], DbVal.vStr ['d']]).2.2.2.1 (by decide)
  · exact (search_documents_c10_row_shape Unit (fun _ => ()) [] 5
      [[DbVal.vInt 1, DbVal.vStr ['t'], DbVal.vStr ['d']]]
      [DbVal.vInt 1]).2.2.2.2 (by decide)

end OceanBaseRag
